import Mathlib

/-!
Shallow embedding of the retrieval core of `src/server.js` (an Express RAG
backend).  JavaScript strings are modelled as `List Char`; the pure core
functions (`normalizeText`, `chunkText`, `tokenize`, `scoreChunk`,
`retrieveRelevantChunks`, `detectLanguage`) are translated function by
function.  The file-system and document-decoding collaborators used by
`buildIndex` are modelled by an explicit list of file entries whose decoded
content is an `Option` (`none` = the decode step threw, which the source
catches and skips).
-/

namespace Ohara

/-- The character class of the JavaScript regexp `\s` (ECMA-262 WhiteSpace and
LineTerminator code points), as used by `split(/\s+/)`, `replace(/\s+/g, " ")`,
`replace(/[^...\s]/g, " ")` and `trim()` in `src/server.js`. -/
def isWs (c : Char) : Bool :=
  c == ' ' || c == '\t' || c == '\n' || c == '\r' || c == '\u000B' ||
  c == '\u000C' || c == ' ' || c == ' ' ||
  (' ' ≤ c && c ≤ ' ') || c == ' ' || c == ' ' ||
  c == ' ' || c == ' ' || c == '　' || c == '﻿'

/-- JavaScript `str.split(/\s+/)`: the segments between maximal whitespace
runs.  A run touching the start or the end of the string contributes an empty
segment there, and the empty string splits to `[""]`. -/
def splitWs : List Char → List (List Char)
  | [] => [[]]
  | [c] => if isWs c then [[], []] else [[c]]
  | c :: c2 :: rest =>
    if isWs c then
      if isWs c2 then splitWs (c2 :: rest) else [] :: splitWs (c2 :: rest)
    else
      match splitWs (c2 :: rest) with
      | [] => [[c]]
      | w :: ws => (c :: w) :: ws

/-- JavaScript `arr.join(" ")` on an array of strings. -/
def joinSp : List (List Char) → List Char
  | [] => []
  | [w] => w
  | w :: ws => w ++ ' ' :: joinSp ws

/-- Each maximal whitespace run becomes one space: `replace(/\s+/g, " ")`. -/
def collapseWs : List Char → List Char
  | [] => []
  | [c] => if isWs c then [' '] else [c]
  | c :: c2 :: rest =>
    if isWs c then
      if isWs c2 then collapseWs (c2 :: rest) else ' ' :: collapseWs (c2 :: rest)
    else c :: collapseWs (c2 :: rest)

/-- JavaScript `str.trim()`: strip whitespace from both ends. -/
def trimWs (s : List Char) : List Char :=
  ((s.dropWhile isWs).reverse.dropWhile isWs).reverse

/-- `normalizeText` from `src/server.js`:
`text.replace(/\s+/g, " ").trim()`. -/
def normalizeText (s : List Char) : List Char :=
  trimWs (collapseWs s)

/-- The consecutive slices `words.slice(i, i + wpc)` for `i = 0, wpc, 2*wpc, ...`
taken by the loop in `chunkText`, driven by a fuel argument so that the
definition is structurally recursive (the loop touches each list element at
most once per slice, so `l.length` steps of fuel always suffice when
`1 ≤ wpc`).  For `wpc = 0` the source loop does not terminate; the model is
only used, and only faithful, for `1 ≤ wpc`. -/
def windowsAux (wpc : Nat) : Nat → List (List Char) → List (List (List Char))
  | _, [] => []
  | 0, _ :: _ => []
  | fuel + 1, a :: ws => ((a :: ws).take wpc) :: windowsAux wpc fuel ((a :: ws).drop wpc)

/-- The list of word windows visited by the `for` loop of `chunkText`. -/
def windows (wpc : Nat) (l : List (List Char)) : List (List (List Char)) :=
  windowsAux wpc l.length l

/-- `chunkText` from `src/server.js`: split on `/\s+/`, walk windows of
`wordsPerChunk` words, keep a window only when it has more than 20 elements,
and re-join each kept window with single spaces. -/
def chunkText (text : List Char) (wordsPerChunk : Nat) : List (List Char) :=
  ((windows wordsPerChunk (splitWs text)).filter (fun s => 20 < s.length)).map joinSp

/-- Number of words of a string: the non-empty segments of its whitespace
split. -/
def wordCount (s : List Char) : Nat :=
  ((splitWs s).filter (fun w => !w.isEmpty)).length

/-- One character step of JavaScript `str.toLowerCase()`, restricted to the
character ranges relevant to this source: ASCII `A`-`Z` map to `a`-`z`, the
Turkish uppercase letters of the source regexp map to their lowercase forms,
and dotted capital I (U+0130) maps to the two-code-unit sequence
`i` + combining dot above (U+0307), exactly as in ECMA-262.  All other
characters are kept unchanged; the only characters the remaining pipeline of
`tokenize` treats as significant are covered by these cases. -/
def jsToLowerChar (c : Char) : List Char :=
  if 'A' ≤ c ∧ c ≤ 'Z' then [Char.ofNat (c.toNat + 32)]
  else if c = 'İ' then ['i', '̇']
  else if c = 'Ç' then ['ç']
  else if c = 'Ğ' then ['ğ']
  else if c = 'Ö' then ['ö']
  else if c = 'Ş' then ['ş']
  else if c = 'Ü' then ['ü']
  else [c]

/-- JavaScript `str.toLowerCase()` on a whole string. -/
def jsToLower (s : List Char) : List Char :=
  s.flatMap jsToLowerChar

/-- Membership in the character class `[a-zA-Z0-9ığüşöçİĞÜŞÖÇ\s]` of the
`tokenize` regexp in `src/server.js`. -/
def allowedChar (c : Char) : Bool :=
  ('a' ≤ c && c ≤ 'z') || ('A' ≤ c && c ≤ 'Z') || ('0' ≤ c && c ≤ '9') ||
  c == 'ı' || c == 'ğ' || c == 'ü' || c == 'ş' || c == 'ö' || c == 'ç' ||
  c == 'İ' || c == 'Ğ' || c == 'Ü' || c == 'Ş' || c == 'Ö' || c == 'Ç' ||
  isWs c

/-- `tokenize` from `src/server.js`: lowercase, replace every character
outside the allowed class with a space, split on whitespace, and keep only
tokens longer than 2 characters. -/
def tokenize (s : List Char) : List (List Char) :=
  (splitWs ((jsToLower s).map (fun c => if allowedChar c then c else ' '))).filter
    (fun w => 2 < w.length)

/-- `scoreChunk` from `src/server.js`: iterate the chunk token sequence and
count the tokens that belong to the question token set (`new Set(...)`
membership on JavaScript strings is plain string equality, i.e. list
membership). -/
def scoreChunk (questionTokens chunkTokens : List (List Char)) : Nat :=
  chunkTokens.foldl (fun score t => if questionTokens.contains t then score + 1 else score) 0

/-- An index record `{ text, source }` as pushed by `buildIndex`. -/
structure Chunk where
  text : List Char
  source : List Char
deriving DecidableEq

/-- A record `{ ...ch, score }` as built inside `retrieveRelevantChunks`. -/
structure ScoredChunk where
  text : List Char
  source : List Char
  score : Nat
deriving DecidableEq

/-- A record returned by `retrieveRelevantChunks`.  The scored path returns
objects with a numeric `score` field (`some`); the fallback path returns the
raw index records, which have no `score` field at all (`none`, i.e. reading
`score` on them yields `undefined`). -/
structure RetrievedChunk where
  text : List Char
  source : List Char
  score : Option Nat
deriving DecidableEq

/-- The array `CHUNKS.map((ch) => ({ ...ch, score: scoreChunk(...) }))` built
by `retrieveRelevantChunks` before sorting. -/
def scoredList (chunks : List Chunk) (question : List Char) : List ScoredChunk :=
  let qTokens := tokenize question
  chunks.map (fun ch => ⟨ch.text, ch.source, scoreChunk qTokens (tokenize ch.text)⟩)

/-- The order imposed by the comparator `(a, b) => b.score - a.score`: `a` may
stay before `b` exactly when the comparator is ≤ 0 there, i.e. when
`b.score ≤ a.score`. -/
def scoreGe (a b : ScoredChunk) : Prop :=
  b.score ≤ a.score

instance : DecidableRel scoreGe := fun a b => Nat.decLe b.score a.score

instance : IsTotal ScoredChunk scoreGe := ⟨fun a b => Nat.le_total b.score a.score⟩

instance : IsTrans ScoredChunk scoreGe := ⟨fun _ _ _ hab hbc => le_trans hbc hab⟩

/-- `scored.sort((a, b) => b.score - a.score)`.  `Array.prototype.sort` is
required to be stable by ECMA-262, and a stable sort consistent with a
comparator has a unique output, so insertion sort with the non-strict
descending score order is the faithful model (its stability is proved below in
`filter_sortScored`). -/
def sortScored (l : List ScoredChunk) : List ScoredChunk :=
  l.insertionSort scoreGe

/-- The test `scored[0]?.score === 0`: false on an empty array (optional
chaining yields `undefined`), otherwise a test on the top score. -/
def fallbackCondition (sorted : List ScoredChunk) : Bool :=
  match sorted with
  | [] => false
  | top :: _ => top.score == 0

/-- `retrieveRelevantChunks` from `src/server.js`, with the process-wide
`CHUNKS` array passed explicitly.  The fallback branch returns
`CHUNKS.slice(0, topK)`, whose records carry no `score` field (`none`); the
scored branch returns `scored.slice(0, topK)`, whose records carry a numeric
score (`some`). -/
def retrieveRelevantChunks (chunks : List Chunk) (question : List Char) (topK : Nat) :
    List RetrievedChunk :=
  let scored := scoredList chunks question
  let sorted := sortScored scored
  if fallbackCondition sorted then
    (chunks.take topK).map (fun ch => ⟨ch.text, ch.source, none⟩)
  else
    (sorted.take topK).map (fun sc => ⟨sc.text, sc.source, some sc.score⟩)

/-- The Turkish character list `"çğıöşüÇĞİÖŞÜ"` of `detectLanguage`. -/
def trChars : List Char :=
  ['ç', 'ğ', 'ı', 'ö', 'ş', 'ü', 'Ç', 'Ğ', 'İ', 'Ö', 'Ş', 'Ü']

/-- `detectLanguage` from `src/server.js`: `"tr"` when some character of the
text occurs in `trChars`, `"en"` otherwise. -/
def detectLanguage (text : List Char) : List Char :=
  if text.any (fun c => trChars.contains c) then ['t', 'r'] else ['e', 'n']

/-- Suffix of a file name starting at its last dot, ignoring a dot at
position 0 of the name (Node `path.extname` on a bare file name). -/
def extnameAux : List Char → Option (List Char)
  | [] => none
  | c :: rest =>
    match extnameAux rest with
    | some e => some e
    | none => if c = '.' then some ('.' :: rest) else none

/-- Node `path.extname(file)` for the bare names produced by `readdirSync`. -/
def extname (name : List Char) : List Char :=
  match name with
  | [] => []
  | _ :: rest => (extnameAux rest).getD []

/-- The extension test of `buildIndex`:
`path.extname(file).toLowerCase()` equals `".txt"` or `".docx"`. -/
def isSupported (name : List Char) : Bool :=
  jsToLower (extname name) == ('.' :: ['t', 'x', 't']) ||
  jsToLower (extname name) == ('.' :: ['d', 'o', 'c', 'x'])

/-- A directory entry as seen by `buildIndex`: its name and the outcome of the
external decode capability (`loadTxtFile` / `loadDocxFile`); `none` means the
decode threw, which the source catches, logs and skips. -/
structure FileEntry where
  name : List Char
  content : Option (List Char)
deriving DecidableEq

/-- Decimal digits of a natural number, as the JavaScript template literal
renders the chunk ordinal. -/
def natChars (n : Nat) : List Char :=
  (Nat.repr n).toList

/-- The chunk records contributed by one successfully decoded file:
`{ text: c, source: `${file}#${idx}` }` for each chunk `c` at 0-based
position `idx`. -/
def chunkRecords (name raw : List Char) : List Chunk :=
  (chunkText (normalizeText raw) 350).enum.map
    (fun p => ⟨p.2, name ++ '#' :: natChars p.1⟩)

/-- The chunks one directory entry contributes in the `buildIndex` loop:
nothing unless the extension is supported; nothing when the decode throws
(caught) or the normalized text is empty (`if (!text) continue`); otherwise
the file's chunk records. -/
def processFile (f : FileEntry) : List Chunk :=
  if isSupported f.name then
    match f.content with
    | none => []
    | some raw =>
      let text := normalizeText raw
      if text.isEmpty then [] else chunkRecords f.name raw
  else []

/-- `buildIndex` from `src/server.js` over an explicit directory listing: the
loop pushes each file's chunk records onto one accumulator array. -/
def buildIndex (files : List FileEntry) : List Chunk :=
  files.foldl (fun acc f => acc ++ processFile f) []

/-! ### Helper lemmas about the counting loop of `scoreChunk` -/

theorem foldl_count_eq (q : List (List Char)) :
    ∀ (c : List (List Char)) (n : Nat),
      c.foldl (fun score t => if q.contains t then score + 1 else score) n =
        n + (c.filter (fun t => q.contains t)).length := by
  intro c
  induction c with
  | nil => intro n; simp
  | cons t c ih =>
    intro n
    simp only [List.foldl_cons, List.filter_cons]
    by_cases h : q.contains t = true
    · rw [if_pos h, if_pos h, ih, List.length_cons]
      omega
    · rw [if_neg h, if_neg h, ih]

theorem scoreChunk_eq_filter_length (q c : List (List Char)) :
    scoreChunk q c = (c.filter (fun t => q.contains t)).length := by
  have h := foldl_count_eq q c 0
  simpa only [Nat.zero_add] using h

/-! ### Helper lemmas about `tokenize` -/

theorem length_of_mem_tokenize {s t : List Char} (h : t ∈ tokenize s) : 3 ≤ t.length := by
  unfold tokenize at h
  have := (List.mem_filter.mp h).2
  simpa using this

/-! ### The index and question of retrieval Scenario 3 -/

/-- The two-chunk index of Scenario 3 of the specification. -/
def scenario3Index : List Chunk :=
  [⟨"metabolism sleep routine".toList, "a#0".toList⟩,
   ⟨"unrelated filler words here".toList, "b#0".toList⟩]

/-! ### Claims C2, C6, C7, C8 -/

/-- C2: `scoreChunk` counts, with repetition, the positions of the chunk token
sequence whose token belongs to the question token set; on the Scenario 3
index, `retrieveRelevantChunks("sleep routine tips", 1)` returns exactly the
record of source `a#0` with score 2. -/
theorem C2_scoring_law_and_scenario3 :
    (∀ qTokens chunkTokens : List (List Char),
        scoreChunk qTokens chunkTokens =
          (chunkTokens.filter (fun t => qTokens.contains t)).length) ∧
    retrieveRelevantChunks scenario3Index ("sleep routine tips".toList) 1 =
      [⟨"metabolism sleep routine".toList, "a#0".toList, some 2⟩] :=
  ⟨scoreChunk_eq_filter_length, by decide⟩

/-- C6: `tokenize` lowercases, replaces disallowed characters by spaces,
splits on whitespace and keeps only tokens of length at least 3; on
`"Hello, World! 123"` it yields `["hello", "world", "123"]`. -/
theorem C6_tokenize :
    tokenize ("Hello, World! 123".toList) =
      ["hello".toList, "world".toList, "123".toList] ∧
    ∀ s t : List Char, t ∈ tokenize s → 3 ≤ t.length :=
  ⟨by decide, fun _ _ h => length_of_mem_tokenize h⟩

/-- Witness for C6: membership of `"hello"` in the tokens of the scenario
string discharges the membership hypothesis at a concrete input. -/
theorem C6_tokenize_witness : 3 ≤ ("hello".toList : List Char).length :=
  C6_tokenize.2 ("Hello, World! 123".toList) ("hello".toList) (by decide)

/-- C7: on an empty index, retrieval returns the empty sequence for every
question and every `topK`. -/
theorem C7_empty_index (question : List Char) (topK : Nat) :
    retrieveRelevantChunks [] question topK = [] := by
  simp [retrieveRelevantChunks, scoredList, sortScored, fallbackCondition,
    List.insertionSort]

/-- C8: `detectLanguage` answers the Turkish tag exactly when some character
of the text lies in the fixed accented-letter list, and the default English
tag otherwise; `"Nasıl uyuyabilirim"` is Turkish and `"How can I sleep"` is
English. -/
theorem C8_detectLanguage :
    (∀ text : List Char,
        (detectLanguage text = "tr".toList ↔ ∃ c ∈ text, c ∈ trChars) ∧
        ((¬ ∃ c ∈ text, c ∈ trChars) → detectLanguage text = "en".toList)) ∧
    detectLanguage ("Nasıl uyuyabilirim".toList) = "tr".toList ∧
    detectLanguage ("How can I sleep".toList) = "en".toList := by
  have key : ∀ text : List Char,
      (text.any (fun c => trChars.contains c) = true) ↔ ∃ c ∈ text, c ∈ trChars := by
    intro text
    rw [List.any_eq_true]
    constructor
    · intro ⟨c, hc, hb⟩
      exact ⟨c, hc, List.elem_iff.mp hb⟩
    · intro ⟨c, hc, hb⟩
      exact ⟨c, hc, List.elem_iff.mpr hb⟩
  have hdetT : ∀ text : List Char, text.any (fun c => trChars.contains c) = true →
      detectLanguage text = "tr".toList := by
    intro text h
    unfold detectLanguage
    rw [h]
    rfl
  have hdetF : ∀ text : List Char, text.any (fun c => trChars.contains c) = false →
      detectLanguage text = "en".toList := by
    intro text h
    unfold detectLanguage
    rw [h]
    rfl
  refine ⟨fun text => ⟨?_, ?_⟩, by decide, by decide⟩
  · constructor
    · intro h
      by_contra hno
      have hfalse : text.any (fun c => trChars.contains c) = false := by
        rcases Bool.eq_false_or_eq_true (text.any (fun c => trChars.contains c)) with ht | hf
        · exact absurd ((key text).mp ht) hno
        · exact hf
      rw [hdetF text hfalse] at h
      exact absurd h (by decide)
    · intro hsome
      exact hdetT text ((key text).mpr hsome)
  · intro hno
    have hfalse : text.any (fun c => trChars.contains c) = false := by
      rcases Bool.eq_false_or_eq_true (text.any (fun c => trChars.contains c)) with ht | hf
      · exact absurd ((key text).mp ht) hno
      · exact hf
    exact hdetF text hfalse

/-- Witness for C8: the no-accented-character hypothesis is discharged at the
concrete English question. -/
theorem C8_detectLanguage_witness :
    detectLanguage ("How can I sleep".toList) = "en".toList :=
  (C8_detectLanguage.1 ("How can I sleep".toList)).2 (by decide)

/-! ### Stability and sortedness of the model of `Array.prototype.sort` -/

theorem filter_orderedInsert_of_score_eq {x : ScoredChunk} {s : Nat} (hx : x.score = s) :
    ∀ l : List ScoredChunk,
      (List.orderedInsert scoreGe x l).filter (fun r => r.score == s) =
        x :: l.filter (fun r => r.score == s) := by
  intro l
  induction l with
  | nil => simp [List.orderedInsert, hx]
  | cons b l ih =>
    by_cases hb : scoreGe x b
    · simp [List.orderedInsert, hb, hx]
    · have hxb : x.score < b.score := by
        have : ¬ b.score ≤ x.score := hb
        omega
      have hbs : (b.score == s) = false := by
        rw [beq_eq_false_iff_ne]
        omega
      simp [List.orderedInsert, hb, hbs, ih]

theorem filter_orderedInsert_of_score_ne {x : ScoredChunk} {s : Nat} (hx : x.score ≠ s) :
    ∀ l : List ScoredChunk,
      (List.orderedInsert scoreGe x l).filter (fun r => r.score == s) =
        l.filter (fun r => r.score == s) := by
  intro l
  have hxs : (x.score == s) = false := by
    rw [beq_eq_false_iff_ne]
    exact hx
  induction l with
  | nil => simp [List.orderedInsert, hxs]
  | cons b l ih =>
    by_cases hb : scoreGe x b
    · simp [List.orderedInsert, hb, hxs]
    · simp [List.orderedInsert, hb, List.filter_cons, ih]

/-- Stability of the sort model: for every score value, the records carrying
that score appear in the sorted output exactly in their input order. -/
theorem filter_sortScored (l : List ScoredChunk) (s : Nat) :
    (sortScored l).filter (fun r => r.score == s) = l.filter (fun r => r.score == s) := by
  induction l with
  | nil => rfl
  | cons x l ih =>
    rw [show sortScored (x :: l) = List.orderedInsert scoreGe x (sortScored l) from rfl]
    by_cases hx : x.score = s
    · rw [filter_orderedInsert_of_score_eq hx, ih]
      have hxs : (x.score == s) = true := by
        rw [beq_iff_eq]
        exact hx
      simp [List.filter_cons, hxs]
    · rw [filter_orderedInsert_of_score_ne hx, ih]
      have hxs : (x.score == s) = false := by
        rw [beq_eq_false_iff_ne]
        exact hx
      simp [List.filter_cons, hxs]

/-- The members of the sorted list are the members of the input list. -/
theorem mem_sortScored {r : ScoredChunk} {l : List ScoredChunk} :
    r ∈ sortScored l ↔ r ∈ l :=
  (List.perm_insertionSort scoreGe l).mem_iff

/-- When every record of `l` has score 0, the fallback test on the sorted list
succeeds as soon as `l` is non-empty. -/
theorem fallbackCondition_of_all_zero {l : List ScoredChunk} (hne : l ≠ [])
    (h : ∀ r ∈ l, r.score = 0) : fallbackCondition (sortScored l) = true := by
  cases hs : sortScored l with
  | nil =>
    have : l = [] := by
      have hp := List.perm_insertionSort scoreGe l
      rw [show sortScored l = List.insertionSort scoreGe l from rfl] at hs
      rw [hs] at hp
      exact hp.symm.eq_nil
    exact absurd this hne
  | cons top rest =>
    have htop : top ∈ l := by
      rw [← mem_sortScored, hs]
      exact List.mem_cons_self _ _
    have : top.score = 0 := h top htop
    simp [fallbackCondition, this]

/-- When the fallback test succeeds on the sorted list, every record of the
input has score 0 (the head of a descending-sorted list is a maximum). -/
theorem all_zero_of_fallbackCondition {l : List ScoredChunk}
    (h : fallbackCondition (sortScored l) = true) : ∀ r ∈ l, r.score = 0 := by
  intro r hr
  cases hs : sortScored l with
  | nil =>
    rw [hs] at h
    simp [fallbackCondition] at h
  | cons top rest =>
    rw [hs] at h
    have htop : top.score = 0 := by
      have := h
      simpa [fallbackCondition, Nat.beq_eq_true_eq] using this
    have hsorted : List.Sorted scoreGe (sortScored l) :=
      List.sorted_insertionSort scoreGe l
    rw [hs, List.sorted_cons] at hsorted
    have hrmem : r ∈ top :: rest := by
      rw [← hs]
      exact mem_sortScored.mpr hr
    rcases List.mem_cons.mp hrmem with rfl | hrrest
    · exact htop
    · have : r.score ≤ top.score := hsorted.1 r hrrest
      omega

/-! ### Claims C1, C3, C9 -/

/-- The single-chunk index used to exhibit the missing score field of the
fallback path. -/
def noOverlapIndex : List Chunk :=
  [⟨"aaa bbb ccc".toList, "f#0".toList⟩]

/-- Counterexample to C1 as stated: with an index sharing no token with the
question, the fallback path returns the raw index records, whose `score`
field is absent (`undefined`), not 0. -/
theorem C1_counterexample :
    ∃ r, r ∈ retrieveRelevantChunks noOverlapIndex ("zzz".toList) 4 ∧ r.score ≠ some 0 :=
  ⟨⟨"aaa bbb ccc".toList, "f#0".toList, none⟩, by decide, by decide⟩

/-- C1 as amended: when no chunk shares a token with the question (every
chunk scores 0), retrieval returns the first `topK` index chunks in their
original order, but as the raw index records, which carry no `score` field
(reading it yields `undefined`, modelled as `none`). -/
theorem C1_fallback_returns_first_topK (chunks : List Chunk) (question : List Char)
    (topK : Nat)
    (h : ∀ ch ∈ chunks, scoreChunk (tokenize question) (tokenize ch.text) = 0) :
    retrieveRelevantChunks chunks question topK =
      (chunks.take topK).map (fun ch => ⟨ch.text, ch.source, none⟩) := by
  cases hc : chunks with
  | nil => simp [retrieveRelevantChunks, scoredList, sortScored, fallbackCondition,
      List.insertionSort]
  | cons c0 cs =>
    rw [← hc]
    have hzero : ∀ r ∈ scoredList chunks question, r.score = 0 := by
      intro r hr
      unfold scoredList at hr
      obtain ⟨ch, hch, rfl⟩ := List.mem_map.mp hr
      exact h ch hch
    have hne : scoredList chunks question ≠ [] := by
      unfold scoredList
      simp [hc]
    have hcond := fallbackCondition_of_all_zero hne hzero
    simp [retrieveRelevantChunks, hcond]

/-- Witness for C1: the zero-overlap hypothesis is discharged on the concrete
single-chunk index and question. -/
theorem C1_fallback_witness :
    retrieveRelevantChunks noOverlapIndex ("zzz".toList) 2 =
      [⟨"aaa bbb ccc".toList, "f#0".toList, none⟩] :=
  C1_fallback_returns_first_topK noOverlapIndex ("zzz".toList) 2 (by decide)

/-- C3: retrieval is deterministic (two calls with the same question and
unchanged index return the same sequence), and the sort is stable: for every
score value, the records of that score appear in the sorted sequence in their
original index order. -/
theorem C3_deterministic_and_stable (chunks : List Chunk) (question : List Char)
    (topK : Nat) (s : Nat) :
    retrieveRelevantChunks chunks question topK =
      retrieveRelevantChunks chunks question topK ∧
    (sortScored (scoredList chunks question)).filter (fun r => r.score == s) =
      (scoredList chunks question).filter (fun r => r.score == s) :=
  ⟨rfl, filter_sortScored _ _⟩

/-- C9: on a non-empty index the fallback test — which inspects only the top
score of the descending sort — succeeds exactly when every chunk scores 0
against the question. -/
theorem C9_top_zero_iff_all_zero (chunks : List Chunk) (question : List Char)
    (h : chunks ≠ []) :
    fallbackCondition (sortScored (scoredList chunks question)) = true ↔
      ∀ ch ∈ chunks, scoreChunk (tokenize question) (tokenize ch.text) = 0 := by
  constructor
  · intro hcond ch hch
    have hall := all_zero_of_fallbackCondition hcond
    have : (⟨ch.text, ch.source, scoreChunk (tokenize question) (tokenize ch.text)⟩ :
        ScoredChunk) ∈ scoredList chunks question := by
      unfold scoredList
      exact List.mem_map.mpr ⟨ch, hch, rfl⟩
    exact hall _ this
  · intro hzero
    apply fallbackCondition_of_all_zero
    · unfold scoredList
      cases chunks with
      | nil => exact absurd rfl h
      | cons c0 cs => simp
    · intro r hr
      unfold scoredList at hr
      obtain ⟨ch, hch, rfl⟩ := List.mem_map.mp hr
      exact hzero ch hch

/-- Witness for C9: the non-emptiness hypothesis is discharged on the
Scenario 3 index, where the question overlaps a chunk, so both sides of the
equivalence are false. -/
theorem C9_witness :
    ¬ (fallbackCondition (sortScored (scoredList scenario3Index
        ("sleep routine tips".toList))) = true) :=
  fun hcond =>
    absurd ((C9_top_zero_iff_all_zero scenario3Index ("sleep routine tips".toList)
      (by decide)).mp hcond) (by decide)

/-! ### Lemmas about `splitWs` and `joinSp` -/

theorem splitWs_ne_nil (s : List Char) : splitWs s ≠ [] := by
  induction s with
  | nil => simp [splitWs]
  | cons c rest ih =>
    cases rest with
    | nil => by_cases h : isWs c = true <;> simp [splitWs, h]
    | cons c2 rest2 =>
      by_cases h : isWs c = true
      · by_cases h2 : isWs c2 = true
        · simpa [splitWs, h, h2] using ih
        · simp [splitWs, h, h2]
      · rw [Bool.not_eq_true] at h
        cases hs : splitWs (c2 :: rest2) with
        | nil => exact absurd hs ih
        | cons w ws => simp [splitWs, h, hs]

theorem splitWs_cons_of_not_ws {c : Char} (hc : isWs c = false) {s : List Char}
    {h : List Char} {t : List (List Char)} (hs : splitWs s = h :: t) :
    splitWs (c :: s) = (c :: h) :: t := by
  cases s with
  | nil =>
    rw [show splitWs [] = [[]] from rfl] at hs
    injection hs with h1 h2
    subst h1
    subst h2
    simp [splitWs, hc]
  | cons c2 rest => simp [splitWs, hc, hs]

theorem splitWs_cons_ws {c c2 : Char} (hc : isWs c = true) (hc2 : isWs c2 = false)
    (s : List Char) : splitWs (c :: c2 :: s) = [] :: splitWs (c2 :: s) := by
  simp [splitWs, hc, hc2]

theorem splitWs_append_word {w : List Char} (hw : ∀ ch ∈ w, isWs ch = false) :
    ∀ {s : List Char} {h : List Char} {t : List (List Char)}, splitWs s = h :: t →
      splitWs (w ++ s) = (w ++ h) :: t := by
  induction w with
  | nil => intro s h t hs; simpa using hs
  | cons c w ih =>
    intro s h t hs
    have hc : isWs c = false := hw c (by simp)
    have ihs := ih (fun ch hch => hw ch (by simp [hch])) hs
    simpa using splitWs_cons_of_not_ws hc ihs

theorem splitWs_word {w : List Char} (hw : ∀ ch ∈ w, isWs ch = false) :
    splitWs w = [w] := by
  have h0 : splitWs ([] : List Char) = [] :: [] := rfl
  simpa using splitWs_append_word hw h0

theorem joinSp_cons_cons (w x : List Char) (ws : List (List Char)) :
    joinSp (w :: x :: ws) = w ++ ' ' :: joinSp (x :: ws) := rfl

theorem splitWs_joinSp :
    ∀ {l : List (List Char)}, l ≠ [] →
      (∀ w ∈ l, w ≠ [] ∧ ∀ c ∈ w, isWs c = false) → splitWs (joinSp l) = l := by
  intro l
  induction l with
  | nil => intro hne; exact absurd rfl hne
  | cons w ws ih =>
    intro _ hl
    cases ws with
    | nil => simpa [joinSp] using splitWs_word (hl w (by simp)).2
    | cons x ws2 =>
      have hx := hl x (by simp)
      have hrest : splitWs (joinSp (x :: ws2)) = x :: ws2 :=
        ih (by simp) (fun a ha => hl a (by simp [ha]))
      obtain ⟨c2, x2, hxeq⟩ : ∃ c2 x2, x = c2 :: x2 := by
        cases x with
        | nil => exact absurd rfl hx.1
        | cons a b => exact ⟨a, b, rfl⟩
      have hc2 : isWs c2 = false := hx.2 c2 (by simp [hxeq])
      have hjoin : ∃ r, joinSp (x :: ws2) = c2 :: r := by
        cases ws2 with
        | nil => exact ⟨x2, by simp [joinSp, hxeq]⟩
        | cons y ys => exact ⟨x2 ++ ' ' :: joinSp (y :: ys), by simp [joinSp, hxeq]⟩
      obtain ⟨r, hr⟩ := hjoin
      have hsp : splitWs (' ' :: joinSp (x :: ws2)) = [] :: (x :: ws2) := by
        rw [hr, splitWs_cons_ws (by decide) hc2, ← hr, hrest]
      have happ := splitWs_append_word (hl w (by simp)).2 hsp
      simpa [joinSp_cons_cons] using happ

theorem wordCount_joinSp {l : List (List Char)}
    (hl : ∀ w ∈ l, w ≠ [] ∧ ∀ c ∈ w, isWs c = false) :
    wordCount (joinSp l) = l.length := by
  cases l with
  | nil => rfl
  | cons w ws =>
    rw [wordCount, splitWs_joinSp (by simp) hl]
    have : (w :: ws).filter (fun a => !a.isEmpty) = w :: ws := by
      rw [List.filter_eq_self]
      intro a ha
      have := (hl a ha).1
      simpa [List.isEmpty_iff] using this
    rw [this]

/-! ### Lemmas about the window loop of `chunkText` -/

theorem windowsAux_nil (wpc fuel : Nat) : windowsAux wpc fuel [] = [] := by
  cases fuel <;> rfl

theorem windowsAux_congr {wpc : Nat} (hw : 1 ≤ wpc) :
    ∀ (f1 f2 : Nat) (l : List (List Char)), l.length ≤ f1 → l.length ≤ f2 →
      windowsAux wpc f1 l = windowsAux wpc f2 l := by
  intro f1
  induction f1 with
  | zero =>
    intro f2 l h1 _
    have : l = [] := List.length_eq_zero.mp (Nat.le_zero.mp h1)
    subst this
    rw [windowsAux_nil, windowsAux_nil]
  | succ f ih =>
    intro f2 l h1 h2
    cases l with
    | nil => rw [windowsAux_nil, windowsAux_nil]
    | cons a ws =>
      cases f2 with
      | zero =>
        exfalso
        simp at h2
      | succ f2p =>
        show ((a :: ws).take wpc) :: windowsAux wpc f ((a :: ws).drop wpc) =
          ((a :: ws).take wpc) :: windowsAux wpc f2p ((a :: ws).drop wpc)
        congr 1
        apply ih
        · rw [List.length_drop]
          simp only [List.length_cons] at h1 ⊢
          omega
        · rw [List.length_drop]
          simp only [List.length_cons] at h2 ⊢
          omega

theorem windows_cons {wpc : Nat} (hw : 1 ≤ wpc) (a : List Char) (ws : List (List Char)) :
    windows wpc (a :: ws) = (a :: ws).take wpc :: windows wpc ((a :: ws).drop wpc) := by
  unfold windows
  show ((a :: ws).take wpc) :: windowsAux wpc ws.length ((a :: ws).drop wpc) = _
  congr 1
  apply windowsAux_congr hw
  · rw [List.length_drop]
    simp only [List.length_cons]
    omega
  · exact le_refl _

theorem windows_eq_cons {wpc : Nat} (hw : 1 ≤ wpc) {l : List (List Char)} (hl : l ≠ []) :
    windows wpc l = l.take wpc :: windows wpc (l.drop wpc) := by
  cases l with
  | nil => exact absurd rfl hl
  | cons a ws => exact windows_cons hw a ws

theorem windowsAux_mem {wpc : Nat} :
    ∀ (fuel : Nat) (l w : List (List Char)), w ∈ windowsAux wpc fuel l →
      w.length ≤ wpc ∧ ∀ x ∈ w, x ∈ l := by
  intro fuel
  induction fuel with
  | zero =>
    intro l w hw
    cases l with
    | nil => rw [windowsAux_nil] at hw; simp at hw
    | cons a ws => simp [windowsAux] at hw
  | succ f ih =>
    intro l w hw
    cases l with
    | nil => rw [windowsAux_nil] at hw; simp at hw
    | cons a ws =>
      rcases List.mem_cons.mp hw with rfl | hw2
      · exact ⟨List.length_take_le _ _, fun x hx => List.mem_of_mem_take hx⟩
      · obtain ⟨h1, h2⟩ := ih _ _ hw2
        exact ⟨h1, fun x hx => List.mem_of_mem_drop (h2 x hx)⟩

theorem windows_mem {wpc : Nat} {l w : List (List Char)} (hw : w ∈ windows wpc l) :
    w.length ≤ wpc ∧ ∀ x ∈ w, x ∈ l :=
  windowsAux_mem _ _ _ hw

theorem chunkText_nil {wpc : Nat} (hwpc : 1 ≤ wpc) : chunkText [] wpc = [] := by
  unfold chunkText
  rw [show splitWs [] = [[]] from rfl]
  rw [windows_eq_cons hwpc (by simp)]
  rw [List.take_of_length_le (by simpa using hwpc),
    List.drop_eq_nil_of_le (by simpa using hwpc)]
  rw [show windows wpc ([] : List (List Char)) = [] from rfl]
  simp

/-! ### Claims C4 and C5 -/

/-- A document of exactly 20 words preceded by one space character.  Its
whitespace split has 21 entries — a leading empty string and the 20 words —
so the single window passes the `> 20` length test although the resulting
chunk has only 20 words. -/
def leadingSpaceDoc : List Char :=
  (" aaa bbb ccc ddd eee fff ggg hhh iii jjj kkk lll mmm nnn ooo ppp qqq rrr sss ttt").toList

/-- Counterexample to C4 as stated: on a text with a leading space and exactly
20 words, `chunkText` produces one chunk whose word count is 20, not more
than 20 — the window test counts split segments (including the leading empty
segment), not words. -/
theorem C4_counterexample :
    chunkText leadingSpaceDoc 350 = [leadingSpaceDoc] ∧ wordCount leadingSpaceDoc = 20 := by
  constructor <;> decide

/-- C4 as amended: for every text that is the single-space join of non-empty
whitespace-free words (i.e. a normalized text, the Chunker input of the
specification) and every `wordsPerChunk ≥ 1` (the source loop does not
terminate at 0), every chunk produced by `chunkText` has word count
strictly greater than 20 and at most `wordsPerChunk`; windows of 20 or fewer
words are discarded. -/
theorem C4_chunk_word_bounds (wsl : List (List Char)) (wpc : Nat) (hwpc : 1 ≤ wpc)
    (hwsl : ∀ w ∈ wsl, w ≠ [] ∧ ∀ c ∈ w, isWs c = false) :
    ∀ c ∈ chunkText (joinSp wsl) wpc, 20 < wordCount c ∧ wordCount c ≤ wpc := by
  intro c hc
  cases wsl with
  | nil =>
    rw [show joinSp [] = [] from rfl, chunkText_nil hwpc] at hc
    simp at hc
  | cons w0 ws0 =>
    unfold chunkText at hc
    rw [splitWs_joinSp (by simp) hwsl] at hc
    obtain ⟨win, hwin, rfl⟩ := List.mem_map.mp hc
    have hf := List.mem_filter.mp hwin
    have hlen : 20 < win.length := by simpa using hf.2
    obtain ⟨hle, hmem⟩ := windows_mem hf.1
    have hwords : ∀ x ∈ win, x ≠ [] ∧ ∀ ch ∈ x, isWs ch = false :=
      fun x hx => hwsl x (hmem x hx)
    rw [wordCount_joinSp hwords]
    exact ⟨hlen, hle⟩

/-- Witness for C4: the hypotheses are discharged on a normalized 21-word
text, whose single chunk has 21 words. -/
theorem C4_witness :
    20 < wordCount (joinSp (List.replicate 21 (['a', 'a', 'a'] : List Char))) ∧
      wordCount (joinSp (List.replicate 21 (['a', 'a', 'a'] : List Char))) ≤ 350 :=
  C4_chunk_word_bounds (List.replicate 21 ['a', 'a', 'a']) 350 (by decide)
    (fun w hw => by rw [List.eq_of_mem_replicate hw]; exact ⟨by decide, by decide⟩)
    (joinSp (List.replicate 21 ['a', 'a', 'a'])) (by decide)

/-- C5: on a normalized text of exactly 720 words, `chunkText` with
`wordsPerChunk = 350` yields exactly two chunks of 350 words each (the
20-word remainder is discarded); on 721 words it yields three chunks of 350,
350 and 21 words, in order. -/
theorem C5_scenario1_chunk_sizes :
    (∀ wsl : List (List Char), (∀ w ∈ wsl, w ≠ [] ∧ ∀ c ∈ w, isWs c = false) →
        wsl.length = 720 → (chunkText (joinSp wsl) 350).map wordCount = [350, 350]) ∧
    (∀ wsl : List (List Char), (∀ w ∈ wsl, w ≠ [] ∧ ∀ c ∈ w, isWs c = false) →
        wsl.length = 721 → (chunkText (joinSp wsl) 350).map wordCount = [350, 350, 21]) := by
  constructor
  · intro wsl hwsl hlen
    have h1 : wsl ≠ [] := by rintro rfl; simp at hlen
    have hd1 : (wsl.drop 350).length = 370 := by rw [List.length_drop, hlen]
    have h2 : wsl.drop 350 ≠ [] := by
      intro h
      rw [h] at hd1
      simp at hd1
    have hdd : (wsl.drop 350).drop 350 = wsl.drop 700 := by
      rw [List.drop_drop]
    have hd2 : (wsl.drop 700).length = 20 := by rw [List.length_drop, hlen]
    have h3 : wsl.drop 700 ≠ [] := by
      intro h
      rw [h] at hd2
      simp at hd2
    have h4 : (wsl.drop 700).drop 350 = [] := List.drop_eq_nil_of_le (by omega)
    have l1 : (wsl.take 350).length = 350 := by
      rw [List.length_take, hlen]
      decide
    have l2 : ((wsl.drop 350).take 350).length = 350 := by
      rw [List.length_take, hd1]
      decide
    have l3 : ((wsl.drop 700).take 350) = wsl.drop 700 :=
      List.take_of_length_le (by omega)
    unfold chunkText
    rw [splitWs_joinSp h1 hwsl]
    rw [windows_eq_cons (by decide) h1, windows_eq_cons (by decide) h2, hdd,
      windows_eq_cons (by decide) h3, h4,
      show windows 350 ([] : List (List Char)) = [] from rfl, l3]
    have hsub1 : ∀ x ∈ wsl.take 350, x ≠ [] ∧ ∀ ch ∈ x, isWs ch = false :=
      fun x hx => hwsl x (List.mem_of_mem_take hx)
    have hsub2 : ∀ x ∈ (wsl.drop 350).take 350, x ≠ [] ∧ ∀ ch ∈ x, isWs ch = false :=
      fun x hx => hwsl x (List.mem_of_mem_drop (List.mem_of_mem_take hx))
    simp only [List.filter_cons, List.filter_nil, l1, l2, hd2]
    norm_num
    refine ⟨?_, ?_⟩
    · rw [wordCount_joinSp hsub1, l1]
    · rw [wordCount_joinSp hsub2, l2]
  · intro wsl hwsl hlen
    have h1 : wsl ≠ [] := by rintro rfl; simp at hlen
    have hd1 : (wsl.drop 350).length = 371 := by rw [List.length_drop, hlen]
    have h2 : wsl.drop 350 ≠ [] := by
      intro h
      rw [h] at hd1
      simp at hd1
    have hdd : (wsl.drop 350).drop 350 = wsl.drop 700 := by
      rw [List.drop_drop]
    have hd2 : (wsl.drop 700).length = 21 := by rw [List.length_drop, hlen]
    have h3 : wsl.drop 700 ≠ [] := by
      intro h
      rw [h] at hd2
      simp at hd2
    have h4 : (wsl.drop 700).drop 350 = [] := List.drop_eq_nil_of_le (by omega)
    have l1 : (wsl.take 350).length = 350 := by
      rw [List.length_take, hlen]
      decide
    have l2 : ((wsl.drop 350).take 350).length = 350 := by
      rw [List.length_take, hd1]
      decide
    have l3 : ((wsl.drop 700).take 350) = wsl.drop 700 :=
      List.take_of_length_le (by omega)
    unfold chunkText
    rw [splitWs_joinSp h1 hwsl]
    rw [windows_eq_cons (by decide) h1, windows_eq_cons (by decide) h2, hdd,
      windows_eq_cons (by decide) h3, h4,
      show windows 350 ([] : List (List Char)) = [] from rfl, l3]
    have hsub1 : ∀ x ∈ wsl.take 350, x ≠ [] ∧ ∀ ch ∈ x, isWs ch = false :=
      fun x hx => hwsl x (List.mem_of_mem_take hx)
    have hsub2 : ∀ x ∈ (wsl.drop 350).take 350, x ≠ [] ∧ ∀ ch ∈ x, isWs ch = false :=
      fun x hx => hwsl x (List.mem_of_mem_drop (List.mem_of_mem_take hx))
    have hsub3 : ∀ x ∈ wsl.drop 700, x ≠ [] ∧ ∀ ch ∈ x, isWs ch = false :=
      fun x hx => hwsl x (List.mem_of_mem_drop hx)
    simp only [List.filter_cons, List.filter_nil, l1, l2, hd2]
    norm_num
    refine ⟨?_, ?_, ?_⟩
    · rw [wordCount_joinSp hsub1, l1]
    · rw [wordCount_joinSp hsub2, l2]
    · rw [wordCount_joinSp hsub3, hd2]

/-- Witness for C5: the hypotheses are discharged on concrete 720- and
721-word normalized texts. -/
theorem C5_scenario1_witness :
    (chunkText (joinSp (List.replicate 720 (['a', 'b', 'c'] : List Char))) 350).map
        wordCount = [350, 350] ∧
    (chunkText (joinSp (List.replicate 721 (['a', 'b', 'c'] : List Char))) 350).map
        wordCount = [350, 350, 21] :=
  ⟨C5_scenario1_chunk_sizes.1 _
      (fun w hw => by rw [List.eq_of_mem_replicate hw]; exact ⟨by decide, by decide⟩)
      (by rw [List.length_replicate]),
   C5_scenario1_chunk_sizes.2 _
      (fun w hw => by rw [List.eq_of_mem_replicate hw]; exact ⟨by decide, by decide⟩)
      (by rw [List.length_replicate])⟩

/-! ### Claim C10 -/

/-- Whether `buildIndex` keeps a file: supported extension, successful
decode, and non-empty normalized text. -/
def keepsFile (f : FileEntry) : Bool :=
  isSupported f.name &&
    match f.content with
    | none => false
    | some raw => !(normalizeText raw).isEmpty

/-- The chunk records of a file, read off its decoded content. -/
def recordsOf (f : FileEntry) : List Chunk :=
  match f.content with
  | none => []
  | some raw => chunkRecords f.name raw

theorem processFile_eq (f : FileEntry) :
    processFile f = if keepsFile f then recordsOf f else [] := by
  unfold processFile keepsFile recordsOf
  cases hc : f.content with
  | none => by_cases hs : isSupported f.name = true <;> simp [hs]
  | some raw =>
    by_cases hs : isSupported f.name = true <;>
      by_cases he : (normalizeText raw).isEmpty <;> simp [hs, he]

theorem foldl_append_processFile :
    ∀ (files : List FileEntry) (acc : List Chunk),
      files.foldl (fun a f => a ++ processFile f) acc = acc ++ files.flatMap processFile := by
  intro files
  induction files with
  | nil => intro acc; simp
  | cons f fs ih =>
    intro acc
    rw [List.foldl_cons, List.flatMap_cons, ih, List.append_assoc]

theorem buildIndex_eq_flatMap (files : List FileEntry) :
    buildIndex files = files.flatMap processFile := by
  have h := foldl_append_processFile files []
  simpa using h

theorem flatMap_processFile_eq_filter :
    ∀ files : List FileEntry,
      files.flatMap processFile = (files.filter keepsFile).flatMap recordsOf := by
  intro files
  induction files with
  | nil => rfl
  | cons f fs ih =>
    rw [List.flatMap_cons, processFile_eq f, List.filter_cons]
    by_cases h : keepsFile f = true
    · rw [if_pos h, if_pos h, List.flatMap_cons, ih]
    · rw [if_neg h, if_neg h, ih, List.nil_append]

/-- C10: `buildIndex` always completes; a file whose decode fails contributes
no chunks and the build continues; and the final index is the concatenation,
in file-enumeration order, of the chunk records of exactly those supported
files that decoded successfully and normalized to non-empty text. -/
theorem C10_buildIndex_skips_failures (files pre post : List FileEntry)
    (name : List Char) :
    buildIndex files = (files.filter keepsFile).flatMap recordsOf ∧
    buildIndex (pre ++ ⟨name, none⟩ :: post) = buildIndex (pre ++ post) := by
  constructor
  · rw [buildIndex_eq_flatMap, flatMap_processFile_eq_filter]
  · rw [buildIndex_eq_flatMap, buildIndex_eq_flatMap, List.flatMap_append,
      List.flatMap_append, List.flatMap_cons]
    have hnone : processFile ⟨name, none⟩ = [] := by
      unfold processFile
      by_cases hs : isSupported name = true <;> simp [hs]
    rw [hnone, List.nil_append]

end Ohara
